import Mathlib

/-!
Shallow embedding of the atomic-chess rules engine in `src/ChessVar.py`.

The Python class `ChessVar` stores an 8x8 grid of characters (`'.'` for an
empty square, uppercase letters for White pieces, lowercase for Black), a
turn string (`'white'`/`'black'`) and a game-state string (`'UNFINISHED'`,
`'WHITE_WON'`, `'BLACK_WON'`).  Here the character grid becomes a function
`Fin 8 → Fin 8 → Cell` over a tagged `Cell` type (the case of the letter
becomes the `Color` tag; `'.'` becomes `Cell.empty`), the strings become
the enumerations `Color` and `GameState`, and each method becomes a Lean
function with the mutable state passed explicitly.  Fallible paths
(Python exceptions such as an out-of-range list index, a `ValueError`
from `int`, and the unbounded `while` loop of `clear_path`) are modelled
with `Option` or `Except`: `none` or `Except.error` marks a run that
Python would not complete normally.
-/

namespace ChessVar

/-- Colors of pieces; in the source a piece's color is the case of its
letter and the turn is the string `'white'` or `'black'`. -/
inductive Color : Type where
  | white : Color
  | black : Color
deriving DecidableEq, Repr

/-- The six piece kinds, in the source the letters P R N B Q K. -/
inductive PieceType : Type where
  | pawn : PieceType
  | rook : PieceType
  | knight : PieceType
  | bishop : PieceType
  | queen : PieceType
  | king : PieceType
deriving DecidableEq, Repr

/-- One board square's content: `'.'` in the source becomes `empty`,
a letter becomes `piece` with its case as the color. -/
inductive Cell : Type where
  | empty : Cell
  | piece : Color → PieceType → Cell
deriving DecidableEq, Repr

/-- Game status strings of the source: `'UNFINISHED'`, `'WHITE_WON'`,
`'BLACK_WON'`. -/
inductive GameState : Type where
  | unfinished : GameState
  | whiteWon : GameState
  | blackWon : GameState
deriving DecidableEq, Repr

/-- Python `str.isupper` on a board cell: true exactly for a White piece
(`'.'.isupper()` is `False`). -/
def cell_isupper : Cell → Bool
  | Cell.piece Color.white _ => true
  | _ => false

/-- Python `str.islower` on a board cell: true exactly for a Black piece
(`'.'.islower()` is `False`). -/
def cell_islower : Cell → Bool
  | Cell.piece Color.black _ => true
  | _ => false

/-- The `'black' if turn == 'white' else 'white'` turn flip of `make_move`. -/
def opposite : Color → Color
  | Color.white => Color.black
  | Color.black => Color.white

instance exceptDecidableEq {e a : Type} [DecidableEq e] [DecidableEq a] :
    DecidableEq (Except e a) := fun x y =>
  match x, y with
  | Except.error e1, Except.error e2 =>
    if h : e1 = e2 then isTrue (h ▸ rfl) else isFalse (fun hc => h (Except.error.inj hc))
  | Except.ok v1, Except.ok v2 =>
    if h : v1 = v2 then isTrue (h ▸ rfl) else isFalse (fun hc => h (Except.ok.inj hc))
  | Except.error _, Except.ok _ => isFalse (fun hc => Except.noConfusion hc)
  | Except.ok _, Except.error _ => isFalse (fun hc => Except.noConfusion hc)

/-- The 8x8 grid `self._board`, row-major: row 0 is rank 8. -/
abbrev Board : Type := Fin 8 → Fin 8 → Cell

/-- A single Python list assignment `board[r][c] = v`. -/
def update (b : Board) (r c : Fin 8) (v : Cell) : Board :=
  fun r' c' => if r' = r ∧ c' = c then v else b r' c'

/-- The mutable aggregate of a `ChessVar` instance: `self._board`,
`self._turn`, `self._current_game_state`. -/
structure State : Type where
  board : Board
  turn : Color
  gameState : GameState

instance instDecidableEqState : DecidableEq State := fun a b =>
  if h1 : a.board = b.board then
    if h2 : a.turn = b.turn then
      if h3 : a.gameState = b.gameState then
        isTrue (by cases a; cases b; dsimp at h1 h2 h3; rw [h1, h2, h3])
      else isFalse (fun he => h3 (by rw [he]))
    else isFalse (fun he => h2 (by rw [he]))
  else isFalse (fun he => h1 (by rw [he]))

/-- The back-rank layout `'RNBQKBNR'` of `initialize_board`. -/
def back_rank (i : Fin 8) : PieceType :=
  match (i : Nat) with
  | 0 => PieceType.rook
  | 1 => PieceType.knight
  | 2 => PieceType.bishop
  | 3 => PieceType.queen
  | 4 => PieceType.king
  | 5 => PieceType.bishop
  | 6 => PieceType.knight
  | _ => PieceType.rook

/-- `initialize_board`: rows 0 and 1 hold Black's back rank and pawns,
rows 6 and 7 White's pawns and back rank, everything else `'.'`. -/
def initialize_board : Board := fun r c =>
  if (r : Nat) = 0 then Cell.piece Color.black (back_rank c)
  else if (r : Nat) = 1 then Cell.piece Color.black PieceType.pawn
  else if (r : Nat) = 6 then Cell.piece Color.white PieceType.pawn
  else if (r : Nat) = 7 then Cell.piece Color.white (back_rank c)
  else Cell.empty

/-- The state built by `__init__`. -/
def initialState : State :=
  { board := initialize_board, turn := Color.white, gameState := GameState.unfinished }

/-- `self._columns`. -/
def columns : List Char := ['a', 'b', 'c', 'd', 'e', 'f', 'g', 'h']

/-- First code points of the runs of ten consecutive decimal digits
(Unicode general category Nd) of the Unicode 14 character database used
by CPython 3.11: a character in such a run has decimal value
code point minus run start.  These are exactly the single characters
Python's `int` converts. -/
def decimalRunStarts : List Nat := [
    48, 1632, 1776, 1984, 2406, 2534, 2662, 2790, 2918, 3046,
    3174, 3302, 3430, 3558, 3664, 3792, 3872, 4160, 4240, 6112,
    6160, 6470, 6608, 6784, 6800, 6992, 7088, 7232, 7248, 42528,
    43216, 43264, 43472, 43504, 43600, 44016, 65296, 66720, 68912, 69734,
    69872, 69942, 70096, 70384, 70736, 70864, 71248, 71360, 71472, 71904,
    72016, 72784, 73040, 73120, 92768, 92864, 93008, 120782, 120792, 120802,
    120812, 120822, 123200, 123632, 125264, 130032]

/-- Code-point ranges of the characters whose Unicode Numeric_Type is
Digit but not Decimal (superscripts, subscripts, circled digits, ...):
Python's `str.isdigit` accepts them but `int` raises `ValueError` on
them. -/
def digitOnlyRanges : List (Nat × Nat) := [
    (178, 179), (185, 185), (4969, 4977), (6618, 6618), (8304, 8304),
    (8308, 8313), (8320, 8329), (9312, 9320), (9332, 9340), (9352, 9360),
    (9450, 9450), (9461, 9469), (9471, 9471), (10102, 10110), (10112, 10120),
    (10122, 10130), (68160, 68163), (69216, 69224), (69714, 69722), (127232, 127242)]

/-- The decimal digit value of a character, when Python's `int` accepts
it (`none` models the `ValueError` raise). -/
def pyDecimalValue (c : Char) : Option Nat :=
  match decimalRunStarts.find? (fun s => decide (s ≤ c.toNat ∧ c.toNat < s + 10)) with
  | some s => some (c.toNat - s)
  | none => none

/-- Python `str.isdigit` on a single character: true when the character's
Unicode Numeric_Type is Decimal or Digit. -/
def pyIsDigit (c : Char) : Bool :=
  (pyDecimalValue c).isSome
    || digitOnlyRanges.any (fun p => decide (p.1 ≤ c.toNat ∧ c.toNat ≤ p.2))

/-- `position_index`: converts a coordinate string to board indices.
`Except.ok none` is the `(None, None)` return; `Except.error ()` models
the `ValueError` that `int(row)` raises when `row` passed `isdigit()`
with Numeric_Type Digit but is not a decimal digit (e.g. a superscript).
The in-range check `0 <= col_index < 8 and 0 <= row_index < 8` of the
source is kept verbatim; on success it licenses packaging the two
indices as `Fin 8` values. -/
def position_index (position : List Char) : Except Unit (Option (Fin 8 × Fin 8)) :=
  match position with
  | [c0, c1] =>
    if c0 ∈ columns ∧ pyIsDigit c1 = true then
      match pyDecimalValue c1 with
      | none => Except.error ()
      | some v =>
        let col_index : Int := ((columns.indexOf c0 : Nat) : Int)
        let row_index : Int := 8 - (v : Int)
        if h : 0 ≤ col_index ∧ col_index < 8 ∧ 0 ≤ row_index ∧ row_index < 8 then
          Except.ok (some (⟨row_index.toNat, by omega⟩, ⟨col_index.toNat, by omega⟩))
        else Except.ok none
    else Except.ok none
  | _ => Except.ok none

/-- Formatting an in-bounds square back to algebraic notation, as the
renderer does (`str(8 - row)` and the column letter): used to state the
parse round-trip property. -/
def to_algebraic (r c : Fin 8) : List Char :=
  [columns.get ⟨(c : Nat), show (c : Nat) < 8 from c.isLt⟩,
    Char.ofNat ('0'.toNat + (8 - (r : Nat)))]

/-- Python indexing `lst[i]` on a length-8 row or column list: indices in
`[0, 8)` read directly, indices in `[-8, 0)` wrap (Python negative
indexing), anything else raises `IndexError` (modelled `none`). -/
def pyIndex (i : Int) : Option (Fin 8) :=
  if h : -8 ≤ i ∧ i < 8 then some ⟨(i % 8).toNat, by omega⟩ else none

/-- `self._board[r][c]` at possibly out-of-range integer indices. -/
def boardReadInt (b : Board) (r c : Int) : Option Cell :=
  match pyIndex r, pyIndex c with
  | some rf, some cf => some (b rf cf)
  | _, _ => none

/-- The unit-step computation of `clear_path`:
`0 if a == b else (1 if b > a else -1)`. -/
def step_of (a b : Int) : Int :=
  if a = b then 0 else if a < b then 1 else -1

/-- The `while (current_row != to_row or current_col != to_col)` loop of
`clear_path`, with explicit fuel: `none` models a run Python would not
complete normally (an `IndexError` on a board read, or exceeding the fuel,
which never happens for the walks the program performs). -/
def clear_path_loop (b : Board) (toR toC rowStep colStep : Int) :
    Nat → Int → Int → Option Bool
  | 0, _, _ => none
  | fuel + 1, r, c =>
    if r = toR ∧ c = toC then some true
    else
      match boardReadInt b r c with
      | none => none
      | some cell =>
        if cell = Cell.empty then
          clear_path_loop b toR toC rowStep colStep fuel (r + rowStep) (c + colStep)
        else some false

/-- `clear_path`: the callers reach it only with coordinate strings that
`position_index` accepts, so it is modelled directly on the parsed
in-bounds indices (`position_index` is pure, re-parsing returns the same
pair).  Fuel 32 dominates every possible walk: each step moves some
coordinate by 1, so within at most 17 steps the walk reaches the
destination or leaves the indexable range. -/
def clear_path (b : Board) (fromR fromC toR toC : Fin 8) : Option Bool :=
  let rowStep := step_of (fromR : Int) (toR : Int)
  let colStep := step_of (fromC : Int) (toC : Int)
  clear_path_loop b (toR : Int) (toC : Int) rowStep colStep 32
    ((fromR : Int) + rowStep) ((fromC : Int) + colStep)

/-- `pawn_move`: forward one onto an empty square, forward two from the
start row over an empty square onto an empty square, or a diagonal capture
of an opposing piece.  Python chooses direction and start row by
`piece.isupper()`; the opponent test is `islower` for a White mover and
`isupper` otherwise.  The intermediate read `board[from_row + direction][to_col]`
is reached only under `from_row == start_row`, where it is in range. -/
def pawn_move (b : Board) (fromR fromC toR toC : Fin 8) : Bool :=
  let piece := b fromR fromC
  let direction : Int := if cell_isupper piece = true then -1 else 1
  let start_row : Int := if cell_isupper piece = true then 6 else 1
  let opponent : Cell → Bool := if cell_isupper piece = true then cell_islower else cell_isupper
  if (toC : Int) = (fromC : Int) then
    if (toR : Int) = (fromR : Int) + direction ∧ b toR toC = Cell.empty then true
    else if (fromR : Int) = start_row ∧ (toR : Int) = (fromR : Int) + 2 * direction
        ∧ boardReadInt b ((fromR : Int) + direction) (toC : Int) = some Cell.empty
        ∧ b toR toC = Cell.empty then true
    else false
  else if ((toC : Int) - (fromC : Int)).natAbs = 1 ∧ (toR : Int) = (fromR : Int) + direction then
    if b toR toC ≠ Cell.empty ∧ opponent (b toR toC) = true then true else false
  else false

/-- `rook_move`: shared row or column, then path clearance. -/
def rook_move (b : Board) (fromR fromC toR toC : Fin 8) : Option Bool :=
  if fromR = toR ∨ fromC = toC then clear_path b fromR fromC toR toC
  else some false

/-- `knight_move`: `(row_diff, col_diff) in [(2, 1), (1, 2)]`. -/
def knight_move (fromR fromC toR toC : Fin 8) : Bool :=
  let row_diff := ((toR : Int) - (fromR : Int)).natAbs
  let col_diff := ((toC : Int) - (fromC : Int)).natAbs
  if (row_diff, col_diff) = (2, 1) ∨ (row_diff, col_diff) = (1, 2) then true else false

/-- `bishop_move`: equal absolute row and column difference, then path
clearance. -/
def bishop_move (b : Board) (fromR fromC toR toC : Fin 8) : Option Bool :=
  if ((toR : Int) - (fromR : Int)).natAbs = ((toC : Int) - (fromC : Int)).natAbs then
    clear_path b fromR fromC toR toC
  else some false

/-- `queen_move`: Python `rook_move(...) or bishop_move(...)`; the second
operand is evaluated only when the first returns `False`. -/
def queen_move (b : Board) (fromR fromC toR toC : Fin 8) : Option Bool :=
  match rook_move b fromR fromC toR toC with
  | none => none
  | some true => some true
  | some false => bishop_move b fromR fromC toR toC

/-- `king_move`: both coordinate differences at most 1 in absolute value
(the zero displacement is accepted by this rule). -/
def king_move (fromR fromC toR toC : Fin 8) : Bool :=
  if ((toR : Int) - (fromR : Int)).natAbs ≤ 1 ∧ ((toC : Int) - (fromC : Int)).natAbs ≤ 1 then
    true
  else false

/-- `valid_move`: parse both coordinates (a `ValueError` raised by
either parse propagates as `none`; a `(None, None)` result from either
returns `False`), reject an empty or out-of-turn source piece, reject capturing a
piece of the mover's own color, then dispatch on the piece letter to the
per-type rule.  The non-pawn rules re-parse the position strings in the
source; parsing is pure, so they are handed the same indices directly. -/
def valid_move (s : State) (fromP toP : List Char) : Option Bool :=
  match position_index fromP with
  | Except.error _ => none
  | Except.ok fromPair =>
  match position_index toP with
  | Except.error _ => none
  | Except.ok toPair =>
  match fromPair, toPair with
  | some (fromR, fromC), some (toR, toC) =>
    let piece := s.board fromR fromC
    let target := s.board toR toC
    if piece = Cell.empty then some false
    else if (s.turn = Color.white ∧ cell_islower piece = true)
        ∨ (s.turn = Color.black ∧ cell_isupper piece = true) then some false
    else if (s.turn = Color.white ∧ cell_isupper target = true)
        ∨ (s.turn = Color.black ∧ cell_islower target = true) then some false
    else
      match piece with
      | Cell.empty => some false
      | Cell.piece _ PieceType.pawn => some (pawn_move s.board fromR fromC toR toC)
      | Cell.piece _ PieceType.rook => rook_move s.board fromR fromC toR toC
      | Cell.piece _ PieceType.knight => some (knight_move fromR fromC toR toC)
      | Cell.piece _ PieceType.bishop => bishop_move s.board fromR fromC toR toC
      | Cell.piece _ PieceType.queen => queen_move s.board fromR fromC toR toC
      | Cell.piece _ PieceType.king => some (king_move fromR fromC toR toC)
  | _, _ => some false

/-- `move_piece`: `board[to] = board[from]; board[from] = '.'`. -/
def move_piece (b : Board) (fromR fromC toR toC : Fin 8) : Board :=
  update (update b toR toC (b fromR fromC)) fromR fromC Cell.empty

/-- The nine `(dr, dc)` pairs of the nested `for dr in [-1, 0, 1]` /
`for dc in [-1, 0, 1]` loops of `explode_capture`, in iteration order. -/
def offsets : List (Int × Int) :=
  [(-1, -1), (-1, 0), (-1, 1), (0, -1), (0, 0), (0, 1), (1, -1), (1, 0), (1, 1)]

/-- One iteration of the explosion loop: if the offset square is on the
board and holds a piece, clear it, and when that piece is a King set the
game state (`'BLACK_WON'` for a lowercase king, `'WHITE_WON'` otherwise). -/
def explodeStep (centerR centerC : Fin 8) (acc : Board × GameState) (d : Int × Int) :
    Board × GameState :=
  let ri : Int := (centerR : Int) + d.1
  let ci : Int := (centerC : Int) + d.2
  if h : 0 ≤ ri ∧ ri < 8 ∧ 0 ≤ ci ∧ ci < 8 then
    let rf : Fin 8 := ⟨ri.toNat, by omega⟩
    let cf : Fin 8 := ⟨ci.toNat, by omega⟩
    match acc.1 rf cf with
    | Cell.empty => acc
    | Cell.piece col pt =>
      (update acc.1 rf cf Cell.empty,
        if pt = PieceType.king then
          (if col = Color.black then GameState.blackWon else GameState.whiteWon)
        else acc.2)
  else acc

/-- `explode_capture` centered on an (in-bounds, already parsed) square:
fold the nine loop iterations over the board and game state. -/
def explode_capture (b : Board) (gs : GameState) (centerR centerC : Fin 8) :
    Board × GameState :=
  offsets.foldl (explodeStep centerR centerC) (b, gs)

/-- The inline pawn-promotion block of `make_move`: a pawn whose move
ended on its farthest rank (row 0 for White, row 7 for Black) is replaced
with a queen of its color. -/
def promote (b : Board) (moving : Cell) (toR toC : Fin 8) : Board :=
  match moving with
  | Cell.piece col PieceType.pawn =>
    if (col = Color.white ∧ (toR : Nat) = 0) ∨ (col = Color.black ∧ (toR : Nat) = 7) then
      update b toR toC (Cell.piece col PieceType.queen)
    else b
  | _ => b

/-- `any('K' in row for row in self._board)` for either color's king. -/
def hasKing (b : Board) (col : Color) : Bool :=
  decide (∃ r c, b r c = Cell.piece col PieceType.king)

/-- The middle block of `make_move`: record the target occupant
(`target_piece`), relocate the piece, then either explode on capture or
apply the promotion block.  Returns the board and game state after that
block. -/
def postExplosion (s : State) (fromR fromC toR toC : Fin 8) : Board × GameState :=
  let target_piece := s.board toR toC
  let moving_piece := s.board fromR fromC
  let b1 := move_piece s.board fromR fromC toR toC
  if target_piece ≠ Cell.empty then explode_capture b1 s.gameState toR toC
  else (promote b1 moving_piece toR toC, s.gameState)

/-- The win-condition block of `make_move`: re-scan the whole board, and
set `'BLACK_WON'` when no White king remains, else `'WHITE_WON'` when no
Black king remains, else leave the state alone. -/
def rescan (b : Board) (gs : GameState) : GameState :=
  if hasKing b Color.white = false then GameState.blackWon
  else if hasKing b Color.black = false then GameState.whiteWon
  else gs

/-- The whole mutating tail of `make_move` (everything after validation,
on the already parsed indices): move/explode/promote, win re-scan, and the
turn flip performed only while the state is still `'UNFINISHED'`. -/
def execMove (s : State) (fromR fromC toR toC : Fin 8) : State :=
  let p := postExplosion s fromR fromC toR toC
  let gs3 := rescan p.1 p.2
  { board := p.1,
    turn := if gs3 = GameState.unfinished then opposite s.turn else s.turn,
    gameState := gs3 }

/-- `make_move`: reject when the game is over or the move is invalid
(returning `False` with the state untouched); otherwise run the mutating
tail `execMove` on the parsed indices and return `True`.  The result pairs
the Python return value with the updated state; `none` models a raised
exception (unreachable: `valid_move` returning `True` guarantees both
parses succeed). -/
def make_move (s : State) (fromP toP : List Char) : Option (Bool × State) :=
  if s.gameState ≠ GameState.unfinished then some (false, s)
  else
    match valid_move s fromP toP with
    | none => none
    | some false => some (false, s)
    | some true =>
      match position_index fromP, position_index toP with
      | Except.ok (some (fromR, fromC)), Except.ok (some (toR, toC)) =>
        some (true, execMove s fromR fromC toR toC)
      | _, _ => none

/-- States reachable from the freshly constructed game by any sequence of
`make_move` calls (failed calls return the state unchanged). -/
inductive Reachable : State → Prop where
  | init : Reachable initialState
  | step {s s' : State} {fromP toP : List Char} {r : Bool} :
      Reachable s → make_move s fromP toP = some (r, s') → Reachable s'

/-- Number of kings of one color on the board. -/
def countKings (b : Board) (col : Color) : Nat :=
  (Finset.univ.filter (fun p : Fin 8 × Fin 8 => b p.1 p.2 = Cell.piece col PieceType.king)).card

/-- A demonstration state: the position after White's opening `e2` to
`e4` from the standard start. -/
def demoPawnState : State :=
  { board := update (update initialize_board 4 4 (Cell.piece Color.white PieceType.pawn))
      6 4 Cell.empty,
    turn := Color.black,
    gameState := GameState.unfinished }

/-- A demonstration state: two lone pieces set up so that the White
rook on a1 can capture the Black pawn on a3. -/
def demoCaptureState : State :=
  { board := fun r c =>
      if (r : Nat) = 7 ∧ (c : Nat) = 0 then Cell.piece Color.white PieceType.rook
      else if (r : Nat) = 5 ∧ (c : Nat) = 0 then Cell.piece Color.black PieceType.pawn
      else Cell.empty,
    turn := Color.white, gameState := GameState.unfinished }

/-- The state after that capture (computed by the move executor). -/
def demoCapturePost : State := execMove demoCaptureState 7 0 5 0

/-- A demonstration state: a lone White pawn on e7 about to promote. -/
def demoPromoteState : State :=
  { board := fun r c =>
      if (r : Nat) = 1 ∧ (c : Nat) = 4 then Cell.piece Color.white PieceType.pawn
      else Cell.empty,
    turn := Color.white, gameState := GameState.unfinished }

/-- The state after that promotion (computed by the move executor). -/
def demoPromotePost : State := execMove demoPromoteState 1 4 0 4

/-- The squares an explosion loop over the offset list `ds` touches. -/
def covered (centerR centerC : Fin 8) (ds : List (Int × Int)) (p : Fin 8 × Fin 8) : Prop :=
  ∃ d ∈ ds, (p.1 : Int) = (centerR : Int) + d.1 ∧ (p.2 : Int) = (centerC : Int) + d.2

instance coveredDecidable (centerR centerC : Fin 8) (ds : List (Int × Int))
    (p : Fin 8 × Fin 8) : Decidable (covered centerR centerC ds p) := by
  unfold covered
  infer_instance

/-- Squares on a common rank, file, or diagonal: the precondition under
which the spec defines `clear_path`. -/
def aligned (fromR fromC toR toC : Fin 8) : Prop :=
  (fromR : Int) = (toR : Int) ∨ (fromC : Int) = (toC : Int)
    ∨ ((toR : Int) - (fromR : Int)).natAbs = ((toC : Int) - (fromC : Int)).natAbs

instance alignedDecidable (fromR fromC toR toC : Fin 8) :
    Decidable (aligned fromR fromC toR toC) := by
  unfold aligned
  infer_instance

/-- The number of unit steps from the source to an aligned destination. -/
def lineDist (fromR fromC toR toC : Fin 8) : Nat :=
  Nat.max ((toR : Int) - (fromR : Int)).natAbs ((toC : Int) - (fromC : Int)).natAbs

/-- The per-piece geometric rule consulted by `valid_move`, keyed on the
piece letter as in the `move_funcs` dictionary. -/
def rule_ok (b : Board) (pt : PieceType) (fromR fromC toR toC : Fin 8) : Prop :=
  match pt with
  | PieceType.pawn => pawn_move b fromR fromC toR toC = true
  | PieceType.rook => rook_move b fromR fromC toR toC = some true
  | PieceType.knight => knight_move fromR fromC toR toC = true
  | PieceType.bishop => bishop_move b fromR fromC toR toC = some true
  | PieceType.queen => queen_move b fromR fromC toR toC = some true
  | PieceType.king => king_move fromR fromC toR toC = true

section Lemmas

lemma execMove_board (s : State) (fromR fromC toR toC : Fin 8) :
    (execMove s fromR fromC toR toC).board = (postExplosion s fromR fromC toR toC).1 := rfl

lemma execMove_gameState (s : State) (fromR fromC toR toC : Fin 8) :
    (execMove s fromR fromC toR toC).gameState =
      rescan (postExplosion s fromR fromC toR toC).1 (postExplosion s fromR fromC toR toC).2 :=
  rfl

lemma execMove_turn (s : State) (fromR fromC toR toC : Fin 8) :
    (execMove s fromR fromC toR toC).turn =
      if rescan (postExplosion s fromR fromC toR toC).1 (postExplosion s fromR fromC toR toC).2
          = GameState.unfinished
        then opposite s.turn else s.turn := rfl

/-- A successful `make_move` happened on an unfinished game with a valid
move, and the result is `execMove` on the parsed indices. -/
lemma make_move_success_cases {s s' : State} {fromP toP : List Char}
    (h : make_move s fromP toP = some (true, s')) :
    s.gameState = GameState.unfinished ∧ valid_move s fromP toP = some true ∧
      ∃ fromR fromC toR toC, position_index fromP = Except.ok (some (fromR, fromC)) ∧
        position_index toP = Except.ok (some (toR, toC)) ∧ s' = execMove s fromR fromC toR toC := by
  unfold make_move at h
  split at h
  · simp at h
  · next hne =>
    refine ⟨not_not.mp hne, ?_⟩
    split at h
    · simp at h
    · simp at h
    · next hvalid =>
      refine ⟨hvalid, ?_⟩
      split at h
      · next fromR fromC toR toC hfrom hto =>
        exact ⟨fromR, fromC, toR, toC, hfrom, hto, (by simpa using h.symm)⟩
      · simp at h

/-- A failed `make_move` returned the state it was given. -/
lemma make_move_failure_cases {s s' : State} {fromP toP : List Char}
    (h : make_move s fromP toP = some (false, s')) : s' = s := by
  unfold make_move at h
  split at h
  · simpa using h.symm
  · split at h
    · simp at h
    · simpa using h.symm
    · split at h
      · simp at h
      · simp at h

end Lemmas

/-- C2: if `make_move` returns failure (terminal game state or illegal
move), the board, the turn, and the game state after the call are exactly
their pre-call values. -/
theorem failed_make_move_leaves_state {s s' : State} {fromP toP : List Char}
    (h : make_move s fromP toP = some (false, s')) :
    s'.board = s.board ∧ s'.turn = s.turn ∧ s'.gameState = s.gameState := by
  rcases make_move_failure_cases h with rfl
  exact ⟨rfl, rfl, rfl⟩

/-- Witness for C2: moving a pawn three squares forward is rejected and
the freshly initialized state is returned unchanged. -/
theorem failed_make_move_leaves_state_witness :
    make_move initialState ['e', '2'] ['e', '5'] = some (false, initialState) ∧
      (initialState.board = initialState.board ∧ initialState.turn = initialState.turn ∧
        initialState.gameState = initialState.gameState) :=
  ⟨by decide, @failed_make_move_leaves_state initialState initialState ['e', '2'] ['e', '5'] (by decide)⟩

/-- C7: after a successful `make_move`, the turn flips exactly when the
resulting game state is still unfinished, and is unchanged when the move
ended the game. -/
theorem make_move_turn_alternation {s s' : State} {fromP toP : List Char}
    (h : make_move s fromP toP = some (true, s')) :
    (s'.gameState = GameState.unfinished → s'.turn = opposite s.turn) ∧
      (s'.gameState ≠ GameState.unfinished → s'.turn = s.turn) := by
  obtain ⟨-, -, fromR, fromC, toR, toC, -, -, rfl⟩ := make_move_success_cases h
  rw [execMove_gameState, execMove_turn]
  constructor
  · intro hgs
    rw [if_pos hgs]
  · intro hgs
    rw [if_neg hgs]

/-- Witness for C7: after the opening `e2` to `e4` the game is still
unfinished and the turn has flipped to Black. -/
theorem make_move_turn_alternation_witness :
    make_move initialState ['e', '2'] ['e', '4'] = some (true, demoPawnState) ∧
      ((demoPawnState.gameState = GameState.unfinished →
          demoPawnState.turn = opposite initialState.turn) ∧
        (demoPawnState.gameState ≠ GameState.unfinished →
          demoPawnState.turn = initialState.turn)) :=
  ⟨by decide, @make_move_turn_alternation initialState demoPawnState ['e', '2'] ['e', '4'] (by decide)⟩

/-- C10: a null move (identical parsed source and destination square) is
always rejected by `valid_move`. -/
theorem valid_move_null_rejected {s : State} {pos : List Char} {r c : Fin 8}
    (h : position_index pos = Except.ok (some (r, c))) : valid_move s pos pos = some false := by
  unfold valid_move
  rw [h]
  cases hp : s.board r c with
  | empty => simp [hp]
  | piece col pt =>
    cases col <;> cases s.turn <;>
      simp [hp, cell_isupper, cell_islower]

/-- Witness for C10: from the start, `e2` to `e2` is rejected. -/
theorem valid_move_null_rejected_witness :
    position_index ['e', '2'] = Except.ok (some (6, 4)) ∧
      valid_move initialState ['e', '2'] ['e', '2'] = some false :=
  ⟨by decide, @valid_move_null_rejected initialState ['e', '2'] 6 4 (by decide)⟩


/-- C5: the claim fails on the code.  Python's `str.isdigit` and `int`
are Unicode-aware, so `position_index` returns the in-bounds pair (5, 0)
for the string `a` followed by U+0663 ARABIC-INDIC DIGIT THREE — a string
that matches no algebraic rendering `[a-h][1-8]` of any square — and it
raises `ValueError` (modelled `Except.error`) on `a` followed by U+00B2
SUPERSCRIPT TWO instead of returning `(None, None)`.  The spec's §4.1
contract (ASCII digit only, None on any violation) is the clear intent;
the code's unguarded `isdigit()`/`int()` is the slip. -/
theorem position_index_unicode_digit_bug :
    position_index ['a', '٣'] = Except.ok (some (5, 0)) ∧
      (∀ r c : Fin 8, ['a', '٣'] ≠ to_algebraic r c) ∧
      position_index ['a', '²'] = Except.error () :=
  ⟨by decide, by decide, by decide⟩

lemma board_congr (b : Board) {r1 c1 r2 c2 : Fin 8} (hr : (r1 : Nat) = (r2 : Nat))
    (hc : (c1 : Nat) = (c2 : Nat)) : b r1 c1 = b r2 c2 := by
  rw [Fin.ext hr, Fin.ext hc]

lemma explodeStep_board (centerR centerC : Fin 8) (acc : Board × GameState)
    (d : Int × Int) (r' c' : Fin 8) :
    (explodeStep centerR centerC acc d).1 r' c' =
      if (r' : Int) = (centerR : Int) + d.1 ∧ (c' : Int) = (centerC : Int) + d.2 then Cell.empty
      else acc.1 r' c' := by
  have hr' := r'.isLt
  have hc' := c'.isLt
  by_cases hin : ((r' : Int) = (centerR : Int) + d.1 ∧ (c' : Int) = (centerC : Int) + d.2)
  · rw [if_pos hin]
    simp only [explodeStep]
    split
    · next hb =>
      have hv1 : (r' : Nat) = ((centerR : Int) + d.1).toNat := by
        have := hin.1
        omega
      have hv2 : (c' : Nat) = ((centerC : Int) + d.2).toNat := by
        have := hin.2
        omega
      split
      · next hcell =>
        refine (board_congr acc.1 ?_ ?_).trans hcell
        · exact hv1
        · exact hv2
      · next col pt hcell =>
        simp only [update]
        rw [if_pos ⟨Fin.ext hv1, Fin.ext hv2⟩]
    · next hb =>
      exact absurd (by omega : (0:Int) ≤ (centerR : Int) + d.1 ∧ (centerR : Int) + d.1 < 8
        ∧ (0:Int) ≤ (centerC : Int) + d.2 ∧ (centerC : Int) + d.2 < 8) hb
  · rw [if_neg hin]
    simp only [explodeStep]
    split
    · next hb =>
      split
      · rfl
      · next col pt hcell =>
        simp only [update]
        rw [if_neg]
        rintro ⟨he1, he2⟩
        apply hin
        have hev1 := congrArg Fin.val he1
        have hev2 := congrArg Fin.val he2
        simp only [Fin.val] at hev1 hev2
        constructor
        · omega
        · omega
    · rfl

lemma covered_cons {centerR centerC : Fin 8} {d : Int × Int} {rest : List (Int × Int)}
    {p : Fin 8 × Fin 8} :
    covered centerR centerC (d :: rest) p ↔
      (((p.1 : Int) = (centerR : Int) + d.1 ∧ (p.2 : Int) = (centerC : Int) + d.2)
        ∨ covered centerR centerC rest p) := by
  simp [covered]

lemma explode_fold_board (centerR centerC : Fin 8) (ds : List (Int × Int)) :
    ∀ (b : Board) (gs : GameState) (r' c' : Fin 8),
      (ds.foldl (explodeStep centerR centerC) (b, gs)).1 r' c' =
        if covered centerR centerC ds (r', c') then Cell.empty else b r' c' := by
  induction ds with
  | nil =>
    intro b gs r' c'
    simp [covered]
  | cons d rest ih =>
    intro b gs r' c'
    rw [List.foldl_cons,
      show explodeStep centerR centerC (b, gs) d =
        ((explodeStep centerR centerC (b, gs) d).1,
          (explodeStep centerR centerC (b, gs) d).2) from rfl,
      ih, explodeStep_board]
    by_cases h1 : covered centerR centerC rest (r', c')
    · rw [if_pos h1, if_pos (covered_cons.mpr (Or.inr h1))]
    · rw [if_neg h1]
      by_cases h2 : ((r' : Int) = (centerR : Int) + d.1 ∧ (c' : Int) = (centerC : Int) + d.2)
      · rw [if_pos h2, if_pos (covered_cons.mpr (Or.inl h2))]
      · rw [if_neg h2, if_neg]
        intro hcon
        rcases covered_cons.mp hcon with h | h
        · exact h2 h
        · exact h1 h

lemma covered_offsets_iff (centerR centerC : Fin 8) (p : Fin 8 × Fin 8) :
    covered centerR centerC offsets p ↔
      ((p.1 : Int) - (centerR : Int)).natAbs ≤ 1
        ∧ ((p.2 : Int) - (centerC : Int)).natAbs ≤ 1 := by
  simp only [covered, offsets, List.mem_cons, List.not_mem_nil, or_false]
  constructor
  · rintro ⟨d, hd, h1, h2⟩
    rcases hd with rfl | rfl | rfl | rfl | rfl | rfl | rfl | rfl | rfl <;>
      simp at h1 h2 <;> omega
  · rintro ⟨h1, h2⟩
    have hcase : ((p.1 : Int) - (centerR : Int) = -1 ∨ (p.1 : Int) - (centerR : Int) = 0
        ∨ (p.1 : Int) - (centerR : Int) = 1)
        ∧ ((p.2 : Int) - (centerC : Int) = -1 ∨ (p.2 : Int) - (centerC : Int) = 0
        ∨ (p.2 : Int) - (centerC : Int) = 1) := by omega
    obtain ⟨ha | ha | ha, hb | hb | hb⟩ := hcase
    · exact ⟨(-1, -1), by simp, by omega, by omega⟩
    · exact ⟨(-1, 0), by simp, by omega, by omega⟩
    · exact ⟨(-1, 1), by simp, by omega, by omega⟩
    · exact ⟨(0, -1), by simp, by omega, by omega⟩
    · exact ⟨(0, 0), by simp, by omega, by omega⟩
    · exact ⟨(0, 1), by simp, by omega, by omega⟩
    · exact ⟨(1, -1), by simp, by omega, by omega⟩
    · exact ⟨(1, 0), by simp, by omega, by omega⟩
    · exact ⟨(1, 1), by simp, by omega, by omega⟩

lemma explode_capture_board (b : Board) (gs : GameState) (centerR centerC : Fin 8)
    (r' c' : Fin 8) :
    (explode_capture b gs centerR centerC).1 r' c' =
      if ((r' : Int) - (centerR : Int)).natAbs ≤ 1 ∧ ((c' : Int) - (centerC : Int)).natAbs ≤ 1
        then Cell.empty else b r' c' := by
  rw [explode_capture, explode_fold_board]
  exact if_congr (covered_offsets_iff centerR centerC (r', c')) rfl rfl

lemma move_piece_apply (b : Board) (fromR fromC toR toC r c : Fin 8) :
    move_piece b fromR fromC toR toC r c =
      if r = fromR ∧ c = fromC then Cell.empty
      else if r = toR ∧ c = toC then b fromR fromC
      else b r c := rfl



/-- C1: when a successful `make_move` captured (the destination held a
piece beforehand), the post-move board is the pre-move board with the
from-square emptied and every on-board square of the 3x3 neighborhood of
the destination (center included, so the capturer too) emptied; nothing
else changes, and the removal is one pass over the board — the formula is
stated entirely in terms of the pre-move board, so no cascade occurs. -/
theorem capture_explosion_frame {s s' : State} {fromP toP : List Char}
    {fromR fromC toR toC : Fin 8}
    (h : make_move s fromP toP = some (true, s'))
    (hfrom : position_index fromP = Except.ok (some (fromR, fromC)))
    (hto : position_index toP = Except.ok (some (toR, toC)))
    (hcap : s.board toR toC ≠ Cell.empty) :
    ∀ r c : Fin 8, s'.board r c =
      if ((r : Int) - (toR : Int)).natAbs ≤ 1 ∧ ((c : Int) - (toC : Int)).natAbs ≤ 1
        then Cell.empty
      else if r = fromR ∧ c = fromC then Cell.empty
      else s.board r c := by
  obtain ⟨-, -, fr', fc', tr', tc', hf', ht', rfl⟩ := make_move_success_cases h
  injection hfrom.symm.trans hf' with hf1
  injection hf1 with hf2
  injection hf2 with hfr hfc
  subst hfr
  subst hfc
  injection hto.symm.trans ht' with ht1
  injection ht1 with ht2
  injection ht2 with htr htc
  subst htr
  subst htc
  intro r c
  rw [execMove_board]
  simp only [postExplosion]
  rw [if_pos hcap, explode_capture_board]
  by_cases hn : (((r : Int) - (toR : Int)).natAbs ≤ 1 ∧ ((c : Int) - (toC : Int)).natAbs ≤ 1)
  · rw [if_pos hn, if_pos hn]
  · rw [if_neg hn, if_neg hn, move_piece_apply]
    have hto_ne : ¬(r = toR ∧ c = toC) := by
      rintro ⟨rfl, rfl⟩
      exact hn (by simp)
    by_cases hf : (r = fromR ∧ c = fromC)
    · simp only [if_pos hf]
    · simp only [if_neg hf, if_neg hto_ne]

theorem capture_explosion_frame_witness :
    make_move demoCaptureState ['a', '1'] ['a', '3'] = some (true, demoCapturePost) ∧
      position_index ['a', '1'] = Except.ok (some (7, 0)) ∧
      position_index ['a', '3'] = Except.ok (some (5, 0)) ∧
      demoCaptureState.board 5 0 ≠ Cell.empty ∧
      (∀ r c : Fin 8, demoCapturePost.board r c =
        if ((r : Int) - ((5 : Fin 8) : Int)).natAbs ≤ 1
            ∧ ((c : Int) - ((0 : Fin 8) : Int)).natAbs ≤ 1
          then Cell.empty
        else if r = 7 ∧ c = 0 then Cell.empty
        else demoCaptureState.board r c) :=
  ⟨rfl, by decide, by decide, by decide,
    @capture_explosion_frame demoCaptureState demoCapturePost
      ['a', '1'] ['a', '3'] 7 0 5 0 rfl (by decide) (by decide) (by decide)⟩



/-- C6: on a successful non-capturing `make_move` of a pawn onto its
farthest rank (row 0 for White, row 7 for Black) the destination ends up
holding a queen of the pawn's color, while any capturing pawn move leaves
the destination empty (the explosion removes the pawn), so promotion
never follows a capture. -/
theorem pawn_promotion_on_last_rank {s s' : State} {fromP toP : List Char}
    {fromR fromC toR toC : Fin 8}
    (h : make_move s fromP toP = some (true, s'))
    (hfrom : position_index fromP = Except.ok (some (fromR, fromC)))
    (hto : position_index toP = Except.ok (some (toR, toC))) :
    (∀ col : Color, s.board toR toC = Cell.empty →
        s.board fromR fromC = Cell.piece col PieceType.pawn →
        ((col = Color.white ∧ (toR : Nat) = 0) ∨ (col = Color.black ∧ (toR : Nat) = 7)) →
        s'.board toR toC = Cell.piece col PieceType.queen) ∧
      (s.board toR toC ≠ Cell.empty → s'.board toR toC = Cell.empty) := by
  obtain ⟨-, -, fr', fc', tr', tc', hf', ht', rfl⟩ := make_move_success_cases h
  injection hfrom.symm.trans hf' with hf1
  injection hf1 with hf2
  injection hf2 with hfr hfc
  subst hfr
  subst hfc
  injection hto.symm.trans ht' with ht1
  injection ht1 with ht2
  injection ht2 with htr htc
  subst htr
  subst htc
  constructor
  · intro col hempty hpawn hcond
    rw [execMove_board]
    simp only [postExplosion]
    rw [if_neg (by simpa using hempty)]
    dsimp only
    rw [hpawn]
    simp only [promote]
    rw [if_pos hcond]
    simp [update]
  · intro hcap
    rw [execMove_board]
    simp only [postExplosion]
    rw [if_pos hcap, explode_capture_board]
    rw [if_pos (by simp)]

theorem pawn_promotion_on_last_rank_witness :
    make_move demoPromoteState ['e', '7'] ['e', '8'] = some (true, demoPromotePost) ∧
      position_index ['e', '7'] = Except.ok (some (1, 4)) ∧
      position_index ['e', '8'] = Except.ok (some (0, 4)) ∧
      demoPromoteState.board 0 4 = Cell.empty ∧
      demoPromoteState.board 1 4 = Cell.piece Color.white PieceType.pawn ∧
      demoPromotePost.board 0 4 = Cell.piece Color.white PieceType.queen :=
  ⟨rfl, by decide, by decide, by decide, by decide,
    (@pawn_promotion_on_last_rank demoPromoteState demoPromotePost
        ['e', '7'] ['e', '8'] 1 4 0 4 rfl (by decide) (by decide)).1
      Color.white (by decide) (by decide) (by decide)⟩

lemma boardReadInt_inbounds (b : Board) {r c : Int} (hr : 0 ≤ r ∧ r < 8)
    (hc : 0 ≤ c ∧ c < 8) :
    boardReadInt b r c = some (b ⟨r.toNat, by omega⟩ ⟨c.toNat, by omega⟩) := by
  unfold boardReadInt pyIndex
  rw [dif_pos (show -8 ≤ r ∧ r < 8 by omega), dif_pos (show -8 ≤ c ∧ c < 8 by omega)]
  refine congrArg some (board_congr b ?_ ?_)
  · show (r % 8).toNat = r.toNat
    omega
  · show (c % 8).toNat = c.toNat
    omega

lemma step_of_spec (a b : Int) :
    (a = b ∧ step_of a b = 0) ∨ (a < b ∧ step_of a b = 1) ∨ (b < a ∧ step_of a b = -1) := by
  unfold step_of
  by_cases h : a = b
  · rw [if_pos h]
    exact Or.inl ⟨h, rfl⟩
  · rw [if_neg h]
    by_cases h2 : a < b
    · rw [if_pos h2]
      exact Or.inr (Or.inl ⟨h2, rfl⟩)
    · rw [if_neg h2]
      exact Or.inr (Or.inr ⟨by omega, rfl⟩)

lemma clear_path_loop_run (b : Board) (fromR fromC toR toC : Fin 8) (rS cS : Int) (n : Nat)
    (hr : (toR : Int) = (fromR : Int) + (n : Nat) * rS)
    (hc : (toC : Int) = (fromC : Int) + (n : Nat) * cS)
    (hrS : rS = 0 ∨ rS = 1 ∨ rS = -1)
    (hcS : cS = 0 ∨ cS = 1 ∨ cS = -1)
    (hnz : ¬(rS = 0 ∧ cS = 0)) :
    ∀ (m k fuel : Nat), 1 ≤ k → k + m = n → m < fuel →
      ∃ bl, clear_path_loop b (toR : Int) (toC : Int) rS cS fuel
          ((fromR : Int) + (k : Nat) * rS) ((fromC : Int) + (k : Nat) * cS) = some bl
        ∧ (bl = true ↔ ∀ j : Nat, k ≤ j → j < n →
            boardReadInt b ((fromR : Int) + (j : Nat) * rS) ((fromC : Int) + (j : Nat) * cS)
              = some Cell.empty) := by
  have hfr := fromR.isLt
  have hfc := fromC.isLt
  have htr := toR.isLt
  have htc := toC.isLt
  intro m
  induction m with
  | zero =>
    intro k fuel hk1 hkn hfuel
    have hk : k = n := by omega
    subst hk
    match fuel, hfuel with
    | f + 1, _ =>
      refine ⟨true, ?_, ?_⟩
      · simp only [clear_path_loop]
        rw [if_pos ⟨by omega, by omega⟩]
      · constructor
        · intro _ j hj1 hj2
          omega
        · intro _
          rfl
  | succ m ih =>
    intro k fuel hk1 hkn hfuel
    have hklt : k < n := by omega
    match fuel, hfuel with
    | f + 1, _ =>
      have hinR : 0 ≤ (fromR : Int) + (k : Nat) * rS ∧ (fromR : Int) + (k : Nat) * rS < 8 := by
        rcases hrS with rfl | rfl | rfl <;> omega
      have hinC : 0 ≤ (fromC : Int) + (k : Nat) * cS ∧ (fromC : Int) + (k : Nat) * cS < 8 := by
        rcases hcS with rfl | rfl | rfl <;> omega
      have hne : ¬((fromR : Int) + (k : Nat) * rS = (toR : Int)
          ∧ (fromC : Int) + (k : Nat) * cS = (toC : Int)) := by
        rcases hrS with rfl | rfl | rfl <;> rcases hcS with rfl | rfl | rfl <;> omega
      have hstep : ∀ i : Nat, ((fromR : Int) + (i : Nat) * rS) + rS
          = (fromR : Int) + ((i + 1 : Nat) : Nat) * rS := by
        intro i
        push_cast
        ring
      have hstepC : ∀ i : Nat, ((fromC : Int) + (i : Nat) * cS) + cS
          = (fromC : Int) + ((i + 1 : Nat) : Nat) * cS := by
        intro i
        push_cast
        ring
      by_cases hcell : b ⟨((fromR : Int) + (k : Nat) * rS).toNat, by omega⟩
          ⟨((fromC : Int) + (k : Nat) * cS).toNat, by omega⟩ = Cell.empty
      · obtain ⟨bl, hrun, hiff⟩ := ih (k + 1) f (by omega) (by omega) (by omega)
        refine ⟨bl, ?_, ?_⟩
        · simp only [clear_path_loop]
          rw [if_neg hne, boardReadInt_inbounds b hinR hinC]
          dsimp only
          rw [if_pos hcell, hstep k, hstepC k]
          exact hrun
        · rw [hiff]
          constructor
          · intro hall j hjk hjn
            by_cases hj : j = k
            · subst hj
              rw [boardReadInt_inbounds b hinR hinC, hcell]
            · exact hall j (by omega) hjn
          · intro hall j hjk hjn
            exact hall j (by omega) hjn
      · refine ⟨false, ?_, ?_⟩
        · simp only [clear_path_loop]
          rw [if_neg hne, boardReadInt_inbounds b hinR hinC]
          dsimp only
          rw [if_neg hcell]
        · constructor
          · intro hcon
            exact absurd hcon (by simp)
          · intro hall
            exfalso
            have := hall k le_rfl hklt
            rw [boardReadInt_inbounds b hinR hinC] at this
            exact hcell (Option.some.inj this)



lemma clear_path_spec (b : Board) (fromR fromC toR toC : Fin 8)
    (halign : aligned fromR fromC toR toC) (hne : ¬(fromR = toR ∧ fromC = toC)) :
    ∃ bl, clear_path b fromR fromC toR toC = some bl ∧
      (bl = true ↔ ∀ j : Nat, 1 ≤ j → j < lineDist fromR fromC toR toC →
        boardReadInt b ((fromR : Int) + (j : Nat) * step_of (fromR : Int) (toR : Int))
          ((fromC : Int) + (j : Nat) * step_of (fromC : Int) (toC : Int))
          = some Cell.empty) := by
  have hfr := fromR.isLt
  have hfc := fromC.isLt
  have htr := toR.isLt
  have htc := toC.isLt
  have hne' : ¬((fromR : Int) = (toR : Int) ∧ (fromC : Int) = (toC : Int)) := by
    intro hcon
    exact hne ⟨Fin.ext (by omega), Fin.ext (by omega)⟩
  unfold aligned at halign
  have hne2 : (fromR : Int) ≠ (toR : Int) ∨ (fromC : Int) ≠ (toC : Int) := by
    by_cases h : (fromR : Int) = (toR : Int)
    · exact Or.inr (fun hcon => hne' ⟨h, hcon⟩)
    · exact Or.inl h
  have key : (toR : Int) = (fromR : Int)
        + (lineDist fromR fromC toR toC : Nat) * step_of (fromR : Int) (toR : Int)
      ∧ (toC : Int) = (fromC : Int)
        + (lineDist fromR fromC toR toC : Nat) * step_of (fromC : Int) (toC : Int)
      ∧ ¬(step_of (fromR : Int) (toR : Int) = 0 ∧ step_of (fromC : Int) (toC : Int) = 0)
      ∧ 1 ≤ lineDist fromR fromC toR toC ∧ lineDist fromR fromC toR toC ≤ 7 := by
    have hle1 : ((toR : Int) - (fromR : Int)).natAbs ≤ lineDist fromR fromC toR toC :=
      Nat.le_max_left _ _
    have hle2 : ((toC : Int) - (fromC : Int)).natAbs ≤ lineDist fromR fromC toR toC :=
      Nat.le_max_right _ _
    have hm : lineDist fromR fromC toR toC = ((toR : Int) - (fromR : Int)).natAbs
        ∨ lineDist fromR fromC toR toC = ((toC : Int) - (fromC : Int)).natAbs :=
      max_choice _ _
    rcases hm with hm | hm <;> rcases hne2 with hd | hd <;> rcases halign with ha | ha | ha <;>
      rcases step_of_spec (fromR : Int) (toR : Int) with ⟨h1, h2⟩ | ⟨h1, h2⟩ | ⟨h1, h2⟩ <;>
        rcases step_of_spec (fromC : Int) (toC : Int) with ⟨h3, h4⟩ | ⟨h3, h4⟩ | ⟨h3, h4⟩ <;>
          rw [h2, h4] <;>
            exact ⟨by omega, by omega, by omega, by omega, by omega⟩
  obtain ⟨hr, hc, hnz, hn1, hn7⟩ := key
  obtain ⟨bl, hrun, hiff⟩ := clear_path_loop_run b fromR fromC toR toC
    (step_of (fromR : Int) (toR : Int)) (step_of (fromC : Int) (toC : Int))
    (lineDist fromR fromC toR toC) hr hc
    (by rcases step_of_spec (fromR : Int) (toR : Int) with ⟨h1, h2⟩ | ⟨h1, h2⟩ | ⟨h1, h2⟩ <;>
      rw [h2] <;> simp)
    (by rcases step_of_spec (fromC : Int) (toC : Int) with ⟨h1, h2⟩ | ⟨h1, h2⟩ | ⟨h1, h2⟩ <;>
      rw [h2] <;> simp)
    hnz (lineDist fromR fromC toR toC - 1) 1 32 le_rfl (by omega) (by omega)
  refine ⟨bl, ?_, hiff⟩
  rw [← hrun]
  simp only [clear_path]
  rw [show (fromR : Int) + step_of (fromR : Int) (toR : Int)
      = (fromR : Int) + ((1 : Nat) : Nat) * step_of (fromR : Int) (toR : Int) by push_cast; ring,
    show (fromC : Int) + step_of (fromC : Int) (toC : Int)
      = (fromC : Int) + ((1 : Nat) : Nat) * step_of (fromC : Int) (toC : Int) by push_cast; ring]


lemma clear_path_same (b : Board) (r c : Fin 8) : clear_path b r c r c = some true := by
  have h : ∀ a : Int, step_of a a = 0 := by
    intro a
    unfold step_of
    rw [if_pos rfl]
  simp only [clear_path, h, add_zero]
  rw [show (32 : Nat) = 31 + 1 from rfl]
  simp [clear_path_loop]

lemma rook_move_total (b : Board) (fromR fromC toR toC : Fin 8) :
    rook_move b fromR fromC toR toC ≠ none := by
  unfold rook_move
  split
  · next hg =>
    by_cases hsame : fromR = toR ∧ fromC = toC
    · obtain ⟨rfl, rfl⟩ := hsame
      rw [clear_path_same]
      simp
    · have halign : aligned fromR fromC toR toC := by
        rcases hg with h | h
        · exact Or.inl (by rw [h])
        · exact Or.inr (Or.inl (by rw [h]))
      obtain ⟨bl, hrun, -⟩ := clear_path_spec b fromR fromC toR toC halign hsame
      rw [hrun]
      simp
  · simp

lemma bishop_move_total (b : Board) (fromR fromC toR toC : Fin 8) :
    bishop_move b fromR fromC toR toC ≠ none := by
  unfold bishop_move
  split
  · next hg =>
    by_cases hsame : fromR = toR ∧ fromC = toC
    · obtain ⟨rfl, rfl⟩ := hsame
      rw [clear_path_same]
      simp
    · obtain ⟨bl, hrun, -⟩ :=
        clear_path_spec b fromR fromC toR toC (Or.inr (Or.inr hg)) hsame
      rw [hrun]
      simp
  · simp

lemma queen_move_total (b : Board) (fromR fromC toR toC : Fin 8) :
    queen_move b fromR fromC toR toC ≠ none := by
  unfold queen_move
  split
  · next heq => exact absurd heq (rook_move_total b fromR fromC toR toC)
  · simp
  · exact bishop_move_total b fromR fromC toR toC

/-- C8: for distinct squares on a common rank, file, or diagonal, the
`clear_path` walk terminates normally and returns true exactly when every
square strictly between the endpoints is empty; and the rook, bishop, and
queen rules (its only callers) never reach an abnormal run. -/
theorem clear_path_aligned_spec (b : Board) (fromR fromC toR toC : Fin 8) :
    (aligned fromR fromC toR toC → ¬(fromR = toR ∧ fromC = toC) →
      ∃ bl, clear_path b fromR fromC toR toC = some bl ∧
        (bl = true ↔ ∀ j : Nat, 1 ≤ j → j < lineDist fromR fromC toR toC →
          boardReadInt b ((fromR : Int) + (j : Nat) * step_of (fromR : Int) (toR : Int))
            ((fromC : Int) + (j : Nat) * step_of (fromC : Int) (toC : Int))
            = some Cell.empty)) ∧
    rook_move b fromR fromC toR toC ≠ none ∧
    bishop_move b fromR fromC toR toC ≠ none ∧
    queen_move b fromR fromC toR toC ≠ none :=
  ⟨fun halign hne => clear_path_spec b fromR fromC toR toC halign hne,
    rook_move_total b fromR fromC toR toC,
    bishop_move_total b fromR fromC toR toC,
    queen_move_total b fromR fromC toR toC⟩

/-- Witness for C8: the file from `a1` to `a3` on the initial board is
aligned, and `clear_path` runs to a definite answer on it. -/
theorem clear_path_aligned_spec_witness :
    aligned 7 0 5 0 ∧ ¬((7 : Fin 8) = (5 : Fin 8) ∧ (0 : Fin 8) = (0 : Fin 8)) ∧
      ∃ bl, clear_path initialState.board 7 0 5 0 = some bl ∧
        (bl = true ↔ ∀ j : Nat, 1 ≤ j → j < lineDist 7 0 5 0 →
          boardReadInt initialState.board
            (((7 : Fin 8) : Int) + (j : Nat) * step_of ((7 : Fin 8) : Int) ((5 : Fin 8) : Int))
            (((0 : Fin 8) : Int) + (j : Nat) * step_of ((0 : Fin 8) : Int) ((0 : Fin 8) : Int))
            = some Cell.empty) :=
  ⟨by decide, by decide,
    (clear_path_aligned_spec initialState.board 7 0 5 0).1 (by decide) (by decide)⟩


set_option maxHeartbeats 1600000 in
lemma valid_move_iff (s : State) (fromP toP : List Char) :
    valid_move s fromP toP = some true ↔
      ∃ (fromR fromC toR toC : Fin 8) (pt : PieceType),
        position_index fromP = Except.ok (some (fromR, fromC)) ∧
        position_index toP = Except.ok (some (toR, toC)) ∧
        s.board fromR fromC = Cell.piece s.turn pt ∧
        (∀ pt' : PieceType, s.board toR toC ≠ Cell.piece s.turn pt') ∧
        rule_ok s.board pt fromR fromC toR toC := by
  cases hf : position_index fromP with
  | error e => simp [valid_move, hf]
  | ok fromPair =>
  cases ht : position_index toP with
  | error e => simp [valid_move, hf, ht]
  | ok toPair =>
  cases fromPair with
  | none => simp [valid_move, hf, ht]
  | some pf =>
    obtain ⟨fromR, fromC⟩ := pf
    cases toPair with
    | none => simp [valid_move, hf, ht]
    | some pt0 =>
      obtain ⟨toR, toC⟩ := pt0
      cases hpiece : s.board fromR fromC with
      | empty => simp [valid_move, hf, ht, hpiece]
      | piece col pt =>
        cases htarget : s.board toR toC with
        | empty =>
          cases hturn : s.turn <;> cases col <;> cases pt <;>
            simp only [valid_move, hf, ht, hpiece, htarget, hturn,
              cell_isupper, cell_islower, rule_ok] <;>
            simp <;>
            first
            | (constructor
               · intro hrule
                 refine ⟨fromR, fromC, ⟨rfl, rfl⟩, toR, toC, ⟨rfl, rfl⟩, _, hpiece, ?_, ?_⟩
                 · intro pt'
                   simp [htarget]
                 · exact hrule
               · rintro ⟨fr1, fc1, ⟨rfl, rfl⟩, tr1, tc1, ⟨rfl, rfl⟩, pt1, hp1, -, hr1⟩
                 rw [hpiece] at hp1
                 injection hp1 with h1 h2
                 subst h2
                 exact hr1)
            | (intro x hx hall
               rw [hpiece] at hx
               first
               | exact absurd htarget (hall _)
               | simp at hx)
        | piece col2 pt2 =>
          cases hturn : s.turn <;> cases col <;> cases col2 <;> cases pt <;>
            simp only [valid_move, hf, ht, hpiece, htarget, hturn,
              cell_isupper, cell_islower, rule_ok] <;>
            simp <;>
            first
            | (constructor
               · intro hrule
                 refine ⟨fromR, fromC, ⟨rfl, rfl⟩, toR, toC, ⟨rfl, rfl⟩, _, hpiece, ?_, ?_⟩
                 · intro pt'
                   simp [htarget]
                 · exact hrule
               · rintro ⟨fr1, fc1, ⟨rfl, rfl⟩, tr1, tc1, ⟨rfl, rfl⟩, pt1, hp1, -, hr1⟩
                 rw [hpiece] at hp1
                 injection hp1 with h1 h2
                 subst h2
                 exact hr1)
            | (intro x hx hall
               rw [hpiece] at hx
               first
               | exact absurd htarget (hall _)
               | simp at hx)

/-- C3: `valid_move` accepts exactly the moves that parse to in-bounds
squares, move a piece of the side to move, do not capture a piece of that
same side (capturing the opposing King included among legal targets), and
satisfy the moving piece's per-type geometric rule. -/
theorem valid_move_characterization (s : State) (fromP toP : List Char) :
    valid_move s fromP toP = some true ↔
      ∃ (fromR fromC toR toC : Fin 8) (pt : PieceType),
        position_index fromP = Except.ok (some (fromR, fromC)) ∧
        position_index toP = Except.ok (some (toR, toC)) ∧
        s.board fromR fromC = Cell.piece s.turn pt ∧
        (∀ pt' : PieceType, s.board toR toC ≠ Cell.piece s.turn pt') ∧
        rule_ok s.board pt fromR fromC toR toC :=
  valid_move_iff s fromP toP

lemma hasKing_false_iff (b : Board) (col : Color) :
    hasKing b col = false ↔ countKings b col = 0 := by
  unfold hasKing countKings
  rw [decide_eq_false_iff_not, Finset.card_eq_zero, Finset.filter_eq_empty_iff]
  constructor
  · intro h p _ hcon
    exact h ⟨p.1, p.2, hcon⟩
  · intro h hex
    obtain ⟨r, c, hcon⟩ := hex
    exact h (Finset.mem_univ (r, c)) hcon

lemma countKings_le_of_pointwise {b b' : Board} {col : Color}
    (h : ∀ r c : Fin 8, b' r c = Cell.piece col PieceType.king →
      b r c = Cell.piece col PieceType.king) :
    countKings b' col ≤ countKings b col := by
  unfold countKings
  apply Finset.card_le_card
  intro p hp
  rw [Finset.mem_filter] at hp ⊢
  exact ⟨Finset.mem_univ p, h p.1 p.2 hp.2⟩

lemma move_piece_countKings_le {b : Board} {fromR fromC toR toC : Fin 8} {col : Color}
    (h : b fromR fromC = Cell.piece col PieceType.king →
      b toR toC ≠ Cell.piece col PieceType.king) :
    countKings (move_piece b fromR fromC toR toC) col ≤ countKings b col := by
  by_cases hk : b fromR fromC = Cell.piece col PieceType.king
  · have htar := h hk
    unfold countKings
    have hmemfrom : (fromR, fromC) ∈ Finset.univ.filter
        (fun q : Fin 8 × Fin 8 => b q.1 q.2 = Cell.piece col PieceType.king) :=
      Finset.mem_filter.mpr ⟨Finset.mem_univ _, hk⟩
    have hsub : Finset.univ.filter
        (fun q : Fin 8 × Fin 8 =>
          move_piece b fromR fromC toR toC q.1 q.2 = Cell.piece col PieceType.king) ⊆
        insert (toR, toC) ((Finset.univ.filter
          (fun q : Fin 8 × Fin 8 => b q.1 q.2 = Cell.piece col PieceType.king)).erase
            (fromR, fromC)) := by
      intro p hp
      rw [Finset.mem_filter] at hp
      obtain ⟨-, hp2⟩ := hp
      rw [move_piece_apply] at hp2
      split at hp2
      · exact absurd hp2.symm (by simp)
      · split at hp2
        · next h2 =>
          have : p = (toR, toC) := by
            obtain ⟨h2a, h2b⟩ := h2
            rw [show p = (p.1, p.2) from rfl, h2a, h2b]
          rw [this]
          exact Finset.mem_insert_self _ _
        · next h1 h2 =>
          apply Finset.mem_insert_of_mem
          rw [Finset.mem_erase]
          constructor
          · intro hcon
            rw [hcon] at h1
            exact h1 ⟨rfl, rfl⟩
          · exact Finset.mem_filter.mpr ⟨Finset.mem_univ _, hp2⟩
    have hpos : 1 ≤ (Finset.univ.filter
        (fun q : Fin 8 × Fin 8 => b q.1 q.2 = Cell.piece col PieceType.king)).card :=
      Finset.card_pos.mpr ⟨(fromR, fromC), hmemfrom⟩
    calc (Finset.univ.filter (fun q : Fin 8 × Fin 8 =>
            move_piece b fromR fromC toR toC q.1 q.2 = Cell.piece col PieceType.king)).card
        ≤ (insert (toR, toC) ((Finset.univ.filter
            (fun q : Fin 8 × Fin 8 => b q.1 q.2 = Cell.piece col PieceType.king)).erase
              (fromR, fromC))).card := Finset.card_le_card hsub
      _ ≤ ((Finset.univ.filter
            (fun q : Fin 8 × Fin 8 => b q.1 q.2 = Cell.piece col PieceType.king)).erase
              (fromR, fromC)).card + 1 := Finset.card_insert_le _ _
      _ = (Finset.univ.filter
            (fun q : Fin 8 × Fin 8 => b q.1 q.2 = Cell.piece col PieceType.king)).card
              - 1 + 1 := by rw [Finset.card_erase_of_mem hmemfrom]
      _ ≤ _ := by omega
  · apply countKings_le_of_pointwise
    intro r c hrc
    rw [move_piece_apply] at hrc
    split at hrc
    · exact absurd hrc.symm (by simp)
    · split at hrc
      · exact absurd hrc hk
      · exact hrc

lemma explode_countKings_le (b : Board) (gs : GameState) (centerR centerC : Fin 8)
    (col : Color) :
    countKings (explode_capture b gs centerR centerC).1 col ≤ countKings b col := by
  apply countKings_le_of_pointwise
  intro r c hrc
  rw [explode_capture_board] at hrc
  split at hrc
  · exact absurd hrc.symm (by simp)
  · exact hrc

lemma promote_countKings_le (b : Board) (moving : Cell) (toR toC : Fin 8) (col : Color) :
    countKings (promote b moving toR toC) col ≤ countKings b col := by
  apply countKings_le_of_pointwise
  intro r c hrc
  cases moving with
  | empty => exact hrc
  | piece mcol mpt =>
    cases mpt <;> simp only [promote] at hrc <;> try exact hrc
    split at hrc
    · simp only [update] at hrc
      split at hrc
      · exact absurd hrc.symm (by simp)
      · exact hrc
    · exact hrc

lemma valid_move_king_safety {s : State} {fromP toP : List Char} {fromR fromC toR toC : Fin 8}
    (hvalid : valid_move s fromP toP = some true)
    (hf : position_index fromP = Except.ok (some (fromR, fromC)))
    (ht : position_index toP = Except.ok (some (toR, toC))) (col : Color) :
    s.board fromR fromC = Cell.piece col PieceType.king →
      s.board toR toC ≠ Cell.piece col PieceType.king := by
  intro hk hk2
  obtain ⟨fr', fc', tr', tc', pt, hf', ht', hpiece, hnocap, -⟩ :=
    (valid_move_iff s fromP toP).mp hvalid
  injection hf.symm.trans hf' with hfp1
  injection hfp1 with hfp
  injection hfp with hfr hfc
  subst hfr
  subst hfc
  injection ht.symm.trans ht' with htp1
  injection htp1 with htp
  injection htp with htr htc
  subst htr
  subst htc
  rw [hk] at hpiece
  injection hpiece with h1 h2
  rw [h1] at hk2
  exact hnocap PieceType.king hk2

lemma make_move_countKings_le {s s' : State} {fromP toP : List Char} {res : Bool}
    (h : make_move s fromP toP = some (res, s')) (col : Color) :
    countKings s'.board col ≤ countKings s.board col := by
  cases res with
  | false => rw [make_move_failure_cases h]
  | true =>
    obtain ⟨-, hvalid, fromR, fromC, toR, toC, hf, ht, rfl⟩ := make_move_success_cases h
    have hmp := valid_move_king_safety hvalid hf ht col
    rw [execMove_board]
    simp only [postExplosion]
    split
    · exact (explode_countKings_le _ _ _ _ _).trans (move_piece_countKings_le hmp)
    · exact (promote_countKings_le _ _ _ _ _).trans (move_piece_countKings_le hmp)

/-- C9: every state reachable from the initial position by `make_move`
calls has at most one King of each color on the board. -/
theorem reachable_king_invariant {s : State} (h : Reachable s) :
    countKings s.board Color.white ≤ 1 ∧ countKings s.board Color.black ≤ 1 := by
  induction h with
  | init => exact ⟨by decide, by decide⟩
  | step hprev hmove ih =>
    exact ⟨le_trans (make_move_countKings_le hmove Color.white) ih.1,
      le_trans (make_move_countKings_le hmove Color.black) ih.2⟩

/-- Witness for C9: the invariant at the initial state itself. -/
theorem reachable_king_invariant_witness :
    Reachable initialState ∧
      countKings initialState.board Color.white ≤ 1 ∧
      countKings initialState.board Color.black ≤ 1 :=
  ⟨Reachable.init, reachable_king_invariant Reachable.init⟩

end ChessVar
